import Mathlib

/-!
Verification of the nix2sbom dependency-graph engine (src/nix.rs, src/mirrors.rs,
src/utils.rs) against its natural-language specification.

The Rust code is shallowly embedded: HashMap/BTreeMap values become association
lists (only lookup, insertion and iteration are used by the code), BTreeSet and
HashSet values become duplicate-free lists built by insert-if-absent, and every
Rust code path that can panic (a call to unwrap on a missing key, or the
explicit unknown-mirror panic in translate_url) is modelled by an Option result
whose none constructor marks the panic.  Recursive traversals are totalized
with an explicit fuel argument that strictly decreases at every recursive call;
a some result at any fuel corresponds to the value the Rust function returns,
and exhaustion of every fuel corresponds to non-termination of the Rust code.
-/

namespace NixSbom

/-- Association-list lookup, the embedding of HashMap::get / BTreeMap::get.
Keys in the maps produced by the Rust code are unique, so first-match lookup
agrees with map lookup. -/
def lookupList {α : Type} : List (String × α) → String → Option α
  | [], _ => none
  | (k, v) :: rest, key => if k = key then some v else lookupList rest key

/-- Insert-if-absent, the embedding of BTreeSet::insert / HashSet::insert
(only membership in the resulting set is ever consumed by the code). -/
def insertSet (s : List String) (x : String) : List String :=
  if x ∈ s then s else x :: s

/-- Embedding of the DerivationBuilder enum of src/nix.rs. -/
inductive DerivationBuilder : Type
  | fetchURL : DerivationBuilder
  | bash : DerivationBuilder
  | busybox : DerivationBuilder
  | unknown : DerivationBuilder
deriving DecidableEq

/-- Embedding of the Output struct of src/nix.rs (a store path). -/
structure Output : Type where
  path : String
deriving DecidableEq

/-- Embedding of the InputDerivationDetails struct of src/nix.rs. -/
structure InputDerivationDetails : Type where
  outputs : List String
deriving DecidableEq

/-- Embedding of the InputDerivation enum of src/nix.rs. -/
inductive InputDerivation : Type
  | list : List String → InputDerivation
  | details : InputDerivationDetails → InputDerivation
deriving DecidableEq

/-- Embedding of the Derivation struct of src/nix.rs.  The extra field is a
serde catch-all map of raw JSON values that is never read by any operation of
the program; its values are kept as their serialized text. -/
structure Derivation : Type where
  outputs : List (String × Output)
  inputs_sources : List String
  input_derivations : List (String × InputDerivation)
  system : String
  builder : DerivationBuilder
  args : List String
  env : List (String × String)
  extra : List (String × String)
deriving DecidableEq

/-- Embedding of the LicenseDetails struct of src/nix.rs. -/
structure LicenseDetails : Type where
  free : Option Bool
  redistributable : Option Bool
  deprecated : Option Bool
  short_name : Option String
  full_name : Option String
  spdx_id : Option String
deriving DecidableEq

/-- Embedding of the PackageLicense enum of src/nix.rs. -/
inductive PackageLicense : Type
  | name : String → PackageLicense
  | details : LicenseDetails → PackageLicense
deriving DecidableEq

/-- Embedding of the License enum of src/nix.rs. -/
inductive License : Type
  | one : PackageLicense → License
  | many : List PackageLicense → License
deriving DecidableEq

/-- Embedding of the PackageMaintainer struct of src/nix.rs. -/
structure PackageMaintainer : Type where
  email : Option String
  name : String
  github_username : Option String
  github_id : Option Nat
deriving DecidableEq

/-- Embedding of the PackageMaintainers enum of src/nix.rs. -/
inductive PackageMaintainers : Type
  | list : List PackageMaintainer → PackageMaintainers
  | embeddedList : List (List PackageMaintainer) → PackageMaintainers
deriving DecidableEq

/-- Embedding of the Homepage enum of src/nix.rs. -/
inductive Homepage : Type
  | one : String → Homepage
  | many : List String → Homepage
deriving DecidableEq

/-- Embedding of the PackageMeta struct of src/nix.rs. -/
structure PackageMeta : Type where
  available : Option Bool
  broken : Option Bool
  insecure : Option Bool
  description : Option String
  unfree : Option Bool
  unsupported : Option Bool
  homepage : Option Homepage
  maintainers : Option PackageMaintainers
  license : Option License
deriving DecidableEq

/-- Embedding of the Package struct of src/nix.rs. -/
structure Package : Type where
  name : String
  pname : String
  version : String
  system : String
  output_name : String
  meta : PackageMeta
deriving DecidableEq

/-- Embedding of the PackageNode struct of src/nix.rs.  The children and
patches fields embed BTreeSet values as duplicate-free lists. -/
structure PackageNode : Type where
  main_derivation : Derivation
  package : Option Package
  sources : List Derivation
  patches : List String
  children : List String
deriving DecidableEq

/-- Embedding of the PackageGraph struct of src/nix.rs. -/
structure PackageGraph : Type where
  nodes : List (String × PackageNode)
  root_nodes : List String
deriving DecidableEq

/-- The fixed mirror-alias table of src/mirrors.rs (the MIRRORS map; only
lookup by alias name is performed on it). -/
def MIRRORS : List (String × String) := [
  ("hashedMirrors", "https://tarballs.nixos.org"),
  ("alsa", "https://www.alsa-project.org/files/pub/"),
  ("apache", "https://dlcdn.apache.org/"),
  ("bioc", "http://bioc.ism.ac.jp/"),
  ("cran", "https://cran.r-project.org/src/contrib/"),
  ("bitlbee", "https://get.bitlbee.org/"),
  ("gcc", "https://mirror.koddos.net/gcc/"),
  ("gnome", "https://download.gnome.org/"),
  ("gnu", "https://ftp.gnu.org/pub/gnu/"),
  ("gnupg", "https://gnupg.org/ftp/gcrypt/"),
  ("ibiblioPubLinux", "https://www.ibiblio.org/pub/Linux/"),
  ("imagemagick", "https://www.imagemagick.org/download/"),
  ("kde", "https://cdn.download.kde.org/"),
  ("kernel", "https://cdn.kernel.org/pub/"),
  ("mysql", "https://cdn.mysql.com/Downloads/"),
  ("maven", "https://repo1.maven.org/maven2/"),
  ("mozilla", "https://download.cdn.mozilla.net/pub/mozilla.org/"),
  ("osdn", "https://osdn.dl.osdn.jp/"),
  ("postgresql", "https://ftp.postgresql.org/pub/"),
  ("qt", "https://download.qt.io/"),
  ("sageupstream", "https://mirrors.mit.edu/sage/spkg/upstream/"),
  ("samba", "https://www.samba.org/ftp/"),
  ("savannah", "https://ftp.gnu.org/gnu/"),
  ("sourceforge", "https://downloads.sourceforge.net/"),
  ("steamrt", "https://repo.steampowered.com/steamrt/"),
  ("tcsh", "https://astron.com/pub/tcsh/"),
  ("xfce", "https://archive.xfce.org/"),
  ("xorg", "https://xorg.freedesktop.org/releases/"),
  ("cpan", "https://cpan.metacpan.org/"),
  ("hackage", "https://hackage.haskell.org/package/"),
  ("luarocks", "https://luarocks.org/"),
  ("pypi", "https://pypi.io/packages/source/"),
  ("testpypi", "https://test.pypi.io/packages/source/"),
  ("centos", "https://vault.centos.org/"),
  ("debian", "https://httpredir.debian.org/debian/"),
  ("fedora", "https://archives.fedoraproject.org/pub/fedora/"),
  ("gentoo", "https://distfiles.gentoo.org/"),
  ("opensuse", "https://opensuse.hro.nl/opensuse/distribution/"),
  ("ubuntu", "https://nl.archive.ubuntu.com/ubuntu/"),
  ("openbsd", "https://ftp.openbsd.org/pub/OpenBSD/")]

/-- The character class [0-9a-zA-Z_-] of the MIRROR_URL_REGEX in
src/mirrors.rs (ASCII letters, digits, underscore and hyphen). -/
def isMirrorChar (c : Char) : Bool :=
  c.isDigit || c.isAlpha || c = '_' || c = '-'

/-- The mirror scheme prefix as a character list. -/
def mirrorScheme : List Char := "mirror://".toList

/-- Embedding of MIRROR_URL_REGEX.captures: find the leftmost position where
the literal mirror:// is followed by a non-empty maximal run of mirror-name
characters and then a slash, and return that run (capture group 1).  Because
the slash is not in the character class, the greedy one-or-more repetition
never needs to backtrack, so this scanner computes exactly what the regex
engine computes. -/
def findMirrorCapture : List Char → Option String
  | [] => none
  | c :: rest =>
    if mirrorScheme.isPrefixOf (c :: rest) then
      let afterScheme := (c :: rest).drop mirrorScheme.length
      let run := afterScheme.takeWhile isMirrorChar
      if run ≠ [] ∧ (afterScheme.dropWhile isMirrorChar).head? = some '/' then
        some (String.mk run)
      else
        findMirrorCapture rest
    else
      findMirrorCapture rest

/-- One step of str::replace: rewrite every non-overlapping occurrence of the
pattern, scanning left to right.  The fuel is seeded with the length of the
subject string, which suffices because every step consumes at least one
character of the subject (the pattern is never empty where this is used). -/
def replaceAllAux (pat rep : List Char) : Nat → List Char → List Char
  | _, [] => []
  | 0, s => s
  | fuel + 1, c :: rest =>
    if pat ≠ [] ∧ pat.isPrefixOf (c :: rest) then
      rep ++ replaceAllAux pat rep fuel ((c :: rest).drop pat.length)
    else
      c :: replaceAllAux pat rep fuel rest

/-- Embedding of str::replace on strings. -/
def replaceAll (s pat rep : String) : String :=
  String.mk (replaceAllAux pat.toList rep.toList s.toList.length s.toList)

/-- Embedding of translate_url of src/mirrors.rs.  A none result models the
explicit Rust panic on an unknown mirror alias.  The g.len() == 0 early return
of the source is dead code (a successful regex capture always has at least the
whole-match group) and is subsumed by the none case of the capture scanner,
which likewise returns the url unchanged. -/
def translate_url (url : String) : Option String :=
  if ¬ mirrorScheme.isPrefixOf url.toList then some url
  else
    match findMirrorCapture url.toList with
    | some mirrorName =>
      match lookupList MIRRORS mirrorName with
      | some mirrorUrl => some (replaceAll url ("mirror://" ++ mirrorName ++ "/") mirrorUrl)
      | none => none
    | none => some url

/-- Substring containment, the embedding of str::contains with a literal
pattern (an empty pattern is contained in every string, as in Rust). -/
def strContains (s sub : String) : Bool :=
  (List.range (s.toList.length + 1)).any (fun i => sub.toList.isPrefixOf (s.toList.drop i))

/-- Length of the maximal digit run at the front of the list, the greedy
extent of one [0-9]+ repetition of the SEMVER_REGEX of src/utils.rs. -/
def digitRunLen (l : List Char) : Nat := (l.takeWhile Char.isDigit).length

mutual

/-- Backtracking matcher for the capture group ([0-9]+.[0-9]+.[0-9]+) of the
SEMVER_REGEX of src/utils.rs, in which the unescaped dots match any character.
semverSeg k l matches one [0-9]+ run followed by k repetitions of
(any-character [0-9]+) at the front of l and returns the matched length,
enumerating candidate run lengths in the greedy backtracking order of the
regex engine (longest first). -/
def semverSeg (k : Nat) (l : List Char) : Option Nat :=
  match k with
  | 0 => let r := digitRunLen l; if r = 0 then none else some r
  | kk + 1 =>
    let r := digitRunLen l
    if r = 0 then none else semverTry kk r l

/-- Auxiliary for semverSeg: try digit-run lengths n, n-1, ..., 1 for the
current [0-9]+ repetition, then one arbitrary character, then the remaining
pattern. -/
def semverTry (k : Nat) (n : Nat) (l : List Char) : Option Nat :=
  match n with
  | 0 => none
  | m + 1 =>
    match l.drop (m + 1) with
    | [] => semverTry k m l
    | _ :: rest =>
      match semverSeg k rest with
      | some t => some ((m + 1) + 1 + t)
      | none => semverTry k m l

end

/-- Scan positions left to right for the first match of the semantic-version
capture group, mirroring the leftmost-match rule of Regex::captures. -/
def semverFindFrom : List Char → Option (List Char)
  | [] => none
  | c :: rest =>
    match semverSeg 2 (c :: rest) with
    | some n => some ((c :: rest).take n)
    | none => semverFindFrom rest

/-- Embedding of get_semver_from_archive_url of src/utils.rs: take the last
slash-separated segment of the url (split always yields at least one segment,
so the unwrap in the source never fires) and return capture group 1 of the
SEMVER_REGEX.  The g.len() == 0 early return of the source is dead code. -/
def get_semver_from_archive_url (archive_url : String) : Option String :=
  let archive_filename := (archive_url.splitOn "/").getLastD ""
  (semverFindFrom archive_filename.toList).map String.mk

/-- ASCII hexadecimal digit. -/
def isHexChar (c : Char) : Bool :=
  c.isDigit || ('a' ≤ c ∧ c ≤ 'f') || ('A' ≤ c ∧ c ≤ 'F')

/-- Modelled from the spec: crate::utils::get_git_sha_from_archive_url is
called by Derivation::get_version in src/nix.rs but its definition is not
under src/ (src/utils.rs does not contain it).  Per section 4.2 of the spec it
extracts a commit SHA from the first download URL's filename; it is modelled
as the first maximal run of exactly forty hexadecimal characters in the last
slash-separated segment of the url. -/
def get_git_sha_from_archive_url (archive_url : String) : Option String :=
  let chars := ((archive_url.splitOn "/").getLastD "").toList
  (List.range chars.length).findSome? (fun i =>
    let run := (chars.drop i).takeWhile isHexChar
    if run.length = 40 ∧ (i = 0 ∨ ¬ isHexChar (chars.getD (i - 1) ' ')) then
      some (String.mk run)
    else none)

/-- Modelled from the spec: crate::utils::get_project_name_from_generic_url is
called by Derivation::get_name in src/nix.rs but its definition is not under
src/.  Per section 4.2 of the spec it parses a project name out of a download
URL using host-specific patterns; it is modelled as the project segment (the
second path segment after the host) of a github.com or gitlab.com url. -/
def get_project_name_from_generic_url (generic_url : String) : Option String :=
  let grab (pre : String) : Option String :=
    if pre.toList.isPrefixOf generic_url.toList then
      match (String.mk (generic_url.toList.drop pre.toList.length)).splitOn "/" with
      | user :: projectName :: _ =>
        if user ≠ "" ∧ projectName ≠ "" then some projectName else none
      | _ => none
    else none
  match grab "https://github.com/" with
  | some n => some n
  | none => grab "https://gitlab.com/"

/-- Remove a literal suffix, if present. -/
def stripSuffixStr (s suf : String) : Option String :=
  if suf.toList.isSuffixOf s.toList then
    some (String.mk (s.toList.take (s.toList.length - suf.toList.length)))
  else none

/-- Modelled from the spec: crate::utils::get_project_name_from_archive_url is
called by Derivation::get_name in src/nix.rs but its definition is not under
src/.  Per section 4.2 of the spec it parses a project name out of a download
URL using generic archive-filename patterns; it is modelled as the archive
filename with its extension removed and any trailing dash-separated components
that begin with a digit (a version suffix) dropped. -/
def get_project_name_from_archive_url (archive_url : String) : Option String :=
  let fname := (archive_url.splitOn "/").getLastD ""
  match [".tar.gz", ".tar.xz", ".tar.bz2", ".tgz", ".zip"].findSome?
      (fun ext => stripSuffixStr fname ext) with
  | none => none
  | some base =>
    let parts := (base.splitOn "-").takeWhile
      (fun part => ¬ (part.toList.head?.getD ' ').isDigit)
    if parts = [] then none else some (String.intercalate "-" parts)

/-- Embedding of Derivation::get_patches of src/nix.rs: the
whitespace-separated store paths of the patches environment entry. -/
def Derivation.get_patches (d : Derivation) : List String :=
  match lookupList d.env "patches" with
  | some patches => patches.splitOn " "
  | none => []

/-- Embedding of Derivation::get_urls of src/nix.rs: the space-separated
entries of the url and urls environment values, each passed through
translate_url.  A none result models the unknown-mirror panic raised inside
translate_url. -/
def Derivation.get_urls (d : Derivation) : Option (List String) := do
  let first ← match lookupList d.env "url" with
    | some url => (url.splitOn " ").mapM translate_url
    | none => pure []
  let second ← match lookupList d.env "urls" with
    | some urls => (urls.splitOn " ").mapM translate_url
    | none => pure []
  pure (first ++ second)

/-- Embedding of Derivation::get_url of src/nix.rs: the first translated url,
when any. -/
def Derivation.get_url (d : Derivation) : Option (Option String) :=
  (d.get_urls).map (fun urls => urls.get? 0)

/-- Embedding of Derivation::get_version_from_env of src/nix.rs: the rev
environment value with a leading v stripped, else the version environment
value. -/
def Derivation.get_version_from_env (d : Derivation) : Option String :=
  match lookupList d.env "rev" with
  | some revision =>
    if "v".toList.isPrefixOf revision.toList then
      some (String.mk (revision.toList.drop 1))
    else some revision
  | none =>
    match lookupList d.env "version" with
    | some version => some version
    | none => none

/-- First project name obtained from a list of urls, mirroring the url loop of
Derivation::get_name (generic pattern first, then archive pattern). -/
def nameFromUrls : List String → Option String
  | [] => none
  | url :: rest =>
    match get_project_name_from_generic_url url with
    | some projectName => some projectName
    | none =>
      match get_project_name_from_archive_url url with
      | some projectName => some projectName
      | none => nameFromUrls rest

/-- Embedding of Derivation::get_name of src/nix.rs.  The outer Option models
the unknown-mirror panic reachable through get_urls; the inner Option is the
Option returned by the Rust function. -/
def Derivation.get_name (d : Derivation) : Option (Option String) :=
  match lookupList d.env "pname" with
  | some pname => some (some pname)
  | none =>
    let fromName : Option String :=
      match lookupList d.env "name" with
      | some name =>
        match d.get_version_from_env with
        | some version =>
          if strContains name version then
            some (replaceAll name ("-" ++ version) "")
          else if name ≠ "source" then some name else none
        | none => if name ≠ "source" then some name else none
      | none => none
    match fromName with
    | some n => some (some n)
    | none => (d.get_urls).map nameFromUrls

/-- First version obtained from a list of urls, mirroring the url loop of
Derivation::get_version (commit SHA first, then semantic version). -/
def versionFromUrls : List String → Option String
  | [] => none
  | url :: rest =>
    match get_git_sha_from_archive_url url with
    | some commitSha => some commitSha
    | none =>
      match get_semver_from_archive_url url with
      | some version => some version
      | none => versionFromUrls rest

/-- Embedding of Derivation::get_version of src/nix.rs.  The outer Option
models the unknown-mirror panic reachable through get_urls; the inner Option
is the Option returned by the Rust function. -/
def Derivation.get_version (d : Derivation) : Option (Option String) :=
  match d.get_version_from_env with
  | some version => some (some version)
  | none =>
    match d.get_urls with
    | none => none
    | some urls =>
      match versionFromUrls urls with
      | some v => some (some v)
      | none =>
        match lookupList d.env "pname" with
        | none => some none
        | some pname =>
          match lookupList d.env "name" with
          | none => some none
          | some name =>
            if strContains name pname then
              some (some (replaceAll name (pname ++ "-") ""))
            else some none

/-- Embedding of Derivation::is_inline_script of src/nix.rs. -/
def Derivation.is_inline_script (d : Derivation) : Bool :=
  (lookupList d.env "text").isSome

/-- The PackageNode a derivation starts from in get_package_graph_next (the
struct literal at the top of its outer loop). -/
def emptyNodeFor (drv : Derivation) : PackageNode :=
  { main_derivation := drv, package := none, sources := [], patches := [], children := [] }

/-- Embedding of the inner loop of get_package_graph_next of src/nix.rs: walk
the input_derivations keys of one derivation, classifying each referenced path
as a patch (when the out environment path of the referenced derivation occurs
in the parent's declared patches list) or as a child, and recording every
referenced path in the global all_child_derivations accumulator.  A none
result models the unwrap panic on an input path absent from the store. -/
def processInputs (derivations : List (String × Derivation)) (parentPatches : List String) :
    List (String × InputDerivation) → PackageNode → List String → Option (PackageNode × List String)
  | [], node, allChild => some (node, allChild)
  | (inputPath, _) :: rest, node, allChild =>
    match lookupList derivations inputPath with
    | none => none
    | some child =>
      let isPatch : Bool :=
        match lookupList child.env "out" with
        | some outPath => decide (outPath ∈ parentPatches)
        | none => false
      if isPatch then
        processInputs derivations parentPatches rest
          { node with patches := insertSet node.patches inputPath }
          (insertSet allChild inputPath)
      else
        processInputs derivations parentPatches rest
          { node with children := insertSet node.children inputPath }
          (insertSet allChild inputPath)

/-- Embedding of the first loop of get_package_graph_next of src/nix.rs: build
one PackageNode per derivation of the store, threading the global
all_child_derivations accumulator. -/
def buildNodes (derivations : List (String × Derivation)) :
    List (String × Derivation) → List (String × PackageNode) → List String →
    Option (List (String × PackageNode) × List String)
  | [], nodes, allChild => some (nodes, allChild)
  | (derivationPath, drv) :: rest, nodes, allChild =>
    match processInputs derivations drv.get_patches drv.input_derivations
        (emptyNodeFor drv) allChild with
    | none => none
    | some (node, allChild2) =>
      buildNodes derivations rest (nodes ++ [(derivationPath, node)]) allChild2

/-- Embedding of get_package_graph_next of src/nix.rs (lines 1208-1251): one
node per derivation, then the second loop marks as a root every derivation
path not recorded in all_child_derivations.  A none result models the unwrap
panic on an input path absent from the store. -/
def get_package_graph_next (derivations : List (String × Derivation)) : Option PackageGraph :=
  match buildNodes derivations derivations [] [] with
  | none => none
  | some (nodes, allChild) =>
    some { nodes := nodes,
           root_nodes := (derivations.map Prod.fst).filter (fun p => decide (p ∉ allChild)) }

/-- Embedding of the child loop of PackageNode::get_reachable_nodes_count of
src/nix.rs (lines 656-680): sum, over the children list, of the reachable-node
count contributed by each child; already-visited children are skipped, a child
path missing from the node map is skipped with a warning, and each child is
inserted into the visited set only after the recursive call into it returns.
The fuel decreases at every recursive call; exhaustion (none) models
non-termination of the Rust recursion. -/
def reachCount (nodes : List (String × PackageNode)) :
    Nat → List String → List String → Option (Nat × List String)
  | _, [], visited => some (0, visited)
  | 0, _ :: _, _ => none
  | fuel + 1, c :: rest, visited =>
    if c ∈ visited then reachCount nodes fuel rest visited
    else
      match lookupList nodes c with
      | none => reachCount nodes fuel rest visited
      | some child =>
        match reachCount nodes fuel child.children visited with
        | none => none
        | some (n, visited2) =>
          match reachCount nodes fuel rest (insertSet visited2 c) with
          | none => none
          | some (m, visited3) => some (n + 1 + m, visited3)

/-- Embedding of PackageNode::get_reachable_nodes_count of src/nix.rs: one for
the node itself plus the contributions of its children. -/
def PackageNode.get_reachable_nodes_count (node : PackageNode)
    (packageNodes : List (String × PackageNode)) (fuel : Nat) (visited : List String) :
    Option (Nat × List String) :=
  match reachCount packageNodes fuel node.children visited with
  | none => none
  | some (k, v) => some (1 + k, v)

/-- The memoization table of PackageNode::get_longest_path: recipe identifier
to computed longest path (HashMap, embedded as an association list whose most
recent insertion shadows older entries). -/
abbrev Memo : Type := List (String × List String)

/-- Embedding of the child loop of PackageNode::get_longest_path of src/nix.rs
(lines 682-706): for each child take its memoized path or recurse into it,
keep the longest path seen so far (strictly longer replaces), and re-insert
the path into the memo table.  A none result models either the unwrap panic on
a child path absent from the node map or fuel exhaustion (non-termination). -/
def lpGo (nodes : List (String × PackageNode)) :
    Nat → List String → List String → Memo → Option (List String × Memo)
  | _, [], longest, memo => some (longest, memo)
  | 0, _ :: _, _, _ => none
  | fuel + 1, c :: rest, longest, memo =>
    match lookupList memo c with
    | some p =>
      lpGo nodes fuel rest (if p.length > longest.length then p else longest) ((c, p) :: memo)
    | none =>
      match lookupList nodes c with
      | none => none
      | some child =>
        match lpGo nodes fuel child.children [] memo with
        | none => none
        | some (p0, memo1) =>
          lpGo nodes fuel rest
            (if (c :: p0).length > longest.length then c :: p0 else longest)
            ((c, c :: p0) :: memo1)

/-- Embedding of PackageNode::get_longest_path of src/nix.rs: the node's own
name followed by the longest path among its children. -/
def PackageNode.get_longest_path (node : PackageNode) (name : String)
    (packageNodes : List (String × PackageNode)) (fuel : Nat) (memo : Memo) :
    Option (List String × Memo) :=
  match lpGo packageNodes fuel node.children [] memo with
  | none => none
  | some (longest, memo2) => some (name :: longest, memo2)

/-- Memo-free reference computation of the longest-path loop: identical to
lpGo except that every child path is recomputed.  Used to state what the
memoized traversal computes. -/
def lpSpecAux (nodes : List (String × PackageNode)) :
    Nat → List String → List String → Option (List String)
  | _, [], longest => some longest
  | 0, _ :: _, _ => none
  | fuel + 1, c :: rest, longest =>
    match lookupList nodes c with
    | none => none
    | some child =>
      match lpSpecAux nodes fuel child.children [] with
      | none => none
      | some p0 =>
        lpSpecAux nodes fuel rest
          (if (c :: p0).length > longest.length then c :: p0 else longest)

/-- The path p is the longest downstream path of the node at identifier id, as
computed by the memo-free reference traversal at some sufficient fuel. -/
def IsNodePath (nodes : List (String × PackageNode)) (id : String) (p : List String) : Prop :=
  ∃ child fuel p0, lookupList nodes id = some child ∧
    lpSpecAux nodes fuel child.children [] = some p0 ∧ p = id :: p0

/-- Every entry of the memo table records the longest downstream path of its
key (the invariant maintained by the memoized traversal). -/
def MemoOK (nodes : List (String × PackageNode)) (memo : Memo) : Prop :=
  ∀ k p, lookupList memo k = some p → IsNodePath nodes k p

/-- Embedding of the reachable_nodes_count part of PackageGraph::get_stats of
src/nix.rs (lines 984-989): for each root node, in order, look the root up in
the node map (the unwrap panic on a missing root is a none result) and record
its reachable-node count computed with a freshly created empty visited set. -/
def reachableStatsGo (g : PackageGraph) (fuel : Nat) : List String → Option (List (String × Nat))
  | [] => some []
  | r :: rest =>
    match lookupList g.nodes r with
    | none => none
    | some node =>
      match node.get_reachable_nodes_count g.nodes fuel [] with
      | none => none
      | some (cnt, _) =>
        match reachableStatsGo g fuel rest with
        | none => none
        | some out => some ((r, cnt) :: out)

/-- The reachable_nodes_count map recorded by PackageGraph::get_stats. -/
def reachable_nodes_count_stats (g : PackageGraph) (fuel : Nat) :
    Option (List (String × Nat)) :=
  reachableStatsGo g fuel g.root_nodes

/-- Embedding of the longest_path_length part of PackageGraph::get_stats of
src/nix.rs (lines 990-995): for each root node, in order, record the length of
its longest path computed with a freshly created empty memo table. -/
def longestPathStatsGo (g : PackageGraph) (fuel : Nat) : List String → Option (List (String × Nat))
  | [] => some []
  | r :: rest =>
    match lookupList g.nodes r with
    | none => none
    | some node =>
      match node.get_longest_path r g.nodes fuel [] with
      | none => none
      | some (p, _) =>
        match longestPathStatsGo g fuel rest with
        | none => none
        | some out => some ((r, p.length) :: out)

/-- The longest_path_length map recorded by PackageGraph::get_stats. -/
def longest_path_length_stats (g : PackageGraph) (fuel : Nat) :
    Option (List (String × Nat)) :=
  longestPathStatsGo g fuel g.root_nodes

/-- A minimal concrete derivation used by the example graphs. -/
def dBlank : Derivation :=
  { outputs := [("out", { path := "/nix/store/blank-out" })],
    inputs_sources := [], input_derivations := [], system := "x86_64-linux",
    builder := DerivationBuilder.bash, args := [],
    env := [("name", "blank")], extra := [] }

/-- A leaf derivation with an out environment path, stored under B. -/
def dLeafB : Derivation :=
  { outputs := [("out", { path := "/nix/store/b-out" })],
    inputs_sources := [], input_derivations := [], system := "x86_64-linux",
    builder := DerivationBuilder.bash, args := [],
    env := [("name", "leaf-b"), ("out", "/nix/store/b-out")], extra := [] }

/-- A derivation whose only input derivation is the store path B. -/
def dRootA : Derivation :=
  { outputs := [("out", { path := "/nix/store/a-out" })],
    inputs_sources := [], input_derivations := [("B", InputDerivation.list ["out"])],
    system := "x86_64-linux", builder := DerivationBuilder.bash, args := [],
    env := [("name", "root-a")], extra := [] }

/-- A two-derivation store in which A depends on B; all references resolve. -/
def storeAB : List (String × Derivation) := [("A", dRootA), ("B", dLeafB)]

/-- A store in which A references the identifier B that is absent from the
store: the failing input for the graph-inconsistency behaviour. -/
def storeMissing : List (String × Derivation) := [("A", dRootA)]

/-- A package node with the given children and no patches, sources or
metadata, used by the example graphs. -/
def mkNode (children : List String) : PackageNode :=
  { main_derivation := dBlank, package := none, sources := [],
    patches := [], children := children }

/-- A graph whose two roots A and B share the single leaf child C. -/
def gShared : PackageGraph :=
  { nodes := [("A", mkNode ["C"]), ("B", mkNode ["C"]), ("C", mkNode [])],
    root_nodes := ["A", "B"] }

/-- A graph with a single childless root node. -/
def gLeaf : PackageGraph :=
  { nodes := [("A", mkNode [])], root_nodes := ["A"] }

/-- A two-node graph in which A and B reference each other: the node map on
which the reachable-count traversal never terminates. -/
def cyclicNodes : List (String × PackageNode) :=
  [("A", mkNode ["B"]), ("B", mkNode ["A"])]

/-- A two-node graph in which the root A has the single leaf child B. -/
def gChain : PackageGraph :=
  { nodes := [("A", mkNode ["B"]), ("B", mkNode [])], root_nodes := ["A"] }

/-- A derivation carrying pname zstd and name zstd-1.5.5 and nothing else. -/
def dZstdExample : Derivation :=
  { dBlank with env := [("pname", "zstd"), ("name", "zstd-1.5.5")] }

/-- A derivation carrying pname zstd, name zstd-1.5.5 and additionally an
explicit version environment entry that differs from the name suffix. -/
def dBadVersion : Derivation :=
  { dBlank with env := [("pname", "zstd"), ("name", "zstd-1.5.5"), ("version", "2.0")] }

/-- A derivation whose environment carries only rev equal to v0.8.2. -/
def dRevExample : Derivation :=
  { dBlank with env := [("rev", "v0.8.2")] }

/-- The node built for A from storeAB. -/
def nodeA : PackageNode :=
  { main_derivation := dRootA, package := none, sources := [],
    patches := [], children := ["B"] }

/-- The node built for B from storeAB. -/
def nodeB : PackageNode :=
  { main_derivation := dLeafB, package := none, sources := [],
    patches := [], children := [] }

/-- The graph that get_package_graph_next builds from storeAB. -/
def gAB : PackageGraph :=
  { nodes := [("A", nodeA), ("B", nodeB)], root_nodes := ["A"] }

/-- Every input-derivation reference of every derivation of the store resolves
inside the store (the well-formedness condition under which the graph builder
cannot hit its unwrap panic). -/
def StoreClosed (derivations : List (String × Derivation)) : Prop :=
  ∀ pd ∈ derivations, ∀ id ∈ pd.2.input_derivations,
    (lookupList derivations id.1).isSome = true

instance (derivations : List (String × Derivation)) : Decidable (StoreClosed derivations) := by
  unfold StoreClosed; infer_instance

/-- The identifier x is recorded in the children or patches of some node of
the graph. -/
def ReferencedIn (g : PackageGraph) (x : String) : Prop :=
  ∃ kn ∈ g.nodes, x ∈ kn.2.children ∨ x ∈ kn.2.patches

/-- The per-input classification condition of get_package_graph_next: the
referenced derivation exists and its out environment path occurs in the
parent's declared patches list. -/
def patchCond (derivations : List (String × Derivation)) (parentPatches : List String)
    (x : String) : Bool :=
  match lookupList derivations x with
  | none => false
  | some child =>
    match lookupList child.env "out" with
    | some outPath => decide (outPath ∈ parentPatches)
    | none => false

theorem lookupList_isSome_iff {α : Type} (l : List (String × α)) (k : String) :
    (lookupList l k).isSome = true ↔ k ∈ l.map Prod.fst := by
  induction l with
  | nil => simp [lookupList]
  | cons hd tl ih =>
    obtain ⟨a, b⟩ := hd
    by_cases hak : a = k
    · subst hak; simp [lookupList]
    · simp [lookupList, hak, ih, Ne.symm hak]

theorem mem_insertSet (s : List String) (y x : String) :
    x ∈ insertSet s y ↔ x = y ∨ x ∈ s := by
  unfold insertSet
  by_cases hy : y ∈ s
  · simp only [if_pos hy]
    constructor
    · exact fun h => Or.inr h
    · rintro (rfl | h)
      · exact hy
      · exact h
  · simp [if_neg hy]

/-- Claim C3: for every derivation store in which some recipe references an
identifier absent from the store, building the package graph does not return
a descriptive error: it hits the unwrap panic of get_package_graph_next
(src/nix.rs line 1227), modelled by the none result.  Evaluated at the
concrete failing store in which derivation A references the absent B. -/
theorem c3_builder_panics_on_missing_input :
    get_package_graph_next storeMissing = none := by decide

/-- Claim C7: translate_url leaves every url that does not begin with the
mirror redirector prefix unchanged (hence translation is idempotent on
already-canonical urls), and it rewrites the gnu autoconf mirror url to its
canonical downloads host. -/
theorem c7_translate_url_idempotent :
    (∀ u : String, mirrorScheme.isPrefixOf u.toList = false → translate_url u = some u) ∧
    translate_url "mirror://gnu/autoconf/autoconf-2.72.tar.xz" =
      some "https://ftp.gnu.org/pub/gnu/autoconf/autoconf-2.72.tar.xz" := by
  constructor
  · intro u h
    simp only [translate_url, h]
    simp
  · decide

/-- Closed instance of claim C7 at a concrete non-redirector url. -/
theorem c7_translate_url_idempotent_witness :
    translate_url "https://github.com/sass/libsass/archive/3.6.4.tar.gz" =
      some "https://github.com/sass/libsass/archive/3.6.4.tar.gz" :=
  c7_translate_url_idempotent.1 "https://github.com/sass/libsass/archive/3.6.4.tar.gz"
    (by decide)

/-- Claim C8, counterexample to the version clause as stated: a derivation
whose environment maps pname to zstd and name to zstd-1.5.5 and has no rev
key, but additionally carries version 2.0, yields version 2.0 rather than the
claimed 1.5.5. -/
theorem c8_counterexample_version_key :
    dBadVersion.get_version = some (some "2.0") ∧
    dBadVersion.get_version ≠ some (some "1.5.5") := by decide

/-- Claim C8 as amended: a derivation whose environment maps pname to zstd and
name to zstd-1.5.5 and carries no rev, version, url or urls keys yields name
zstd and version 1.5.5 (the version is recovered by stripping the pname dash
prefix from the name); and every derivation whose environment maps rev to
v0.8.2 yields version 0.8.2 (leading v stripped). -/
theorem c8_name_version_inference :
    (∀ d : Derivation, lookupList d.env "pname" = some "zstd" →
      lookupList d.env "name" = some "zstd-1.5.5" →
      lookupList d.env "rev" = none →
      lookupList d.env "version" = none →
      lookupList d.env "url" = none →
      lookupList d.env "urls" = none →
      d.get_name = some (some "zstd") ∧ d.get_version = some (some "1.5.5")) ∧
    (∀ d : Derivation, lookupList d.env "rev" = some "v0.8.2" →
      d.get_version = some (some "0.8.2")) := by
  constructor
  · intro d hpname hname hrev hversion hurl hurls
    have h1 : d.get_version_from_env = none := by
      simp only [Derivation.get_version_from_env, hrev, hversion]
    have h2 : d.get_urls = some [] := by
      simp only [Derivation.get_urls, hurl, hurls]
      rfl
    constructor
    · simp [Derivation.get_name, hpname]
    · simp only [Derivation.get_version, h1, h2, versionFromUrls, hpname, hname]
      decide
  · intro d hrev
    have h1 : d.get_version_from_env = some "0.8.2" := by
      simp only [Derivation.get_version_from_env, hrev]
      decide
    simp only [Derivation.get_version, h1]

/-- Closed instance of claim C8 at the concrete zstd and rev derivations. -/
theorem c8_name_version_inference_witness :
    (dZstdExample.get_name = some (some "zstd") ∧
      dZstdExample.get_version = some (some "1.5.5")) ∧
    dRevExample.get_version = some (some "0.8.2") :=
  ⟨c8_name_version_inference.1 dZstdExample rfl rfl rfl rfl rfl rfl,
    c8_name_version_inference.2 dRevExample rfl⟩

theorem processInputs_isSome (derivations : List (String × Derivation)) (pp : List String) :
    ∀ (inputs : List (String × InputDerivation)) (node : PackageNode) (allChild : List String),
    (∀ key ∈ inputs.map Prod.fst, (lookupList derivations key).isSome = true) →
    (processInputs derivations pp inputs node allChild).isSome = true := by
  intro inputs
  induction inputs with
  | nil => intro node allChild _; simp [processInputs]
  | cons hd tl ih =>
    intro node allChild h
    obtain ⟨inputPath, det⟩ := hd
    have hhd : (lookupList derivations inputPath).isSome = true := h inputPath (by simp)
    obtain ⟨child, hchild⟩ := Option.isSome_iff_exists.mp hhd
    have htl : ∀ key ∈ tl.map Prod.fst, (lookupList derivations key).isSome = true :=
      fun key hk => h key (by simp [hk])
    simp only [processInputs, hchild]
    split
    · exact ih _ _ htl
    · exact ih _ _ htl

theorem processInputs_spec (derivations : List (String × Derivation)) (pp : List String) :
    ∀ (inputs : List (String × InputDerivation)) (node : PackageNode) (allChild : List String)
      (node2 : PackageNode) (allChild2 : List String),
    processInputs derivations pp inputs node allChild = some (node2, allChild2) →
    node2.main_derivation = node.main_derivation ∧
    node2.package = node.package ∧
    node2.sources = node.sources ∧
    (∀ x, x ∈ allChild2 ↔ x ∈ allChild ∨ x ∈ inputs.map Prod.fst) ∧
    (∀ x, (x ∈ node2.children ∨ x ∈ node2.patches) ↔
      (x ∈ node.children ∨ x ∈ node.patches) ∨ x ∈ inputs.map Prod.fst) := by
  intro inputs
  induction inputs with
  | nil =>
    intro node allChild node2 allChild2 h
    simp only [processInputs, Option.some.injEq, Prod.mk.injEq] at h
    obtain ⟨rfl, rfl⟩ := h
    simp
  | cons hd tl ih =>
    intro node allChild node2 allChild2 h
    obtain ⟨inputPath, det⟩ := hd
    simp only [processInputs] at h
    cases hchild : lookupList derivations inputPath with
    | none => rw [hchild] at h; exact absurd h (by simp)
    | some child =>
      simp only [hchild] at h
      by_cases hp : (match lookupList child.env "out" with
          | some outPath => decide (outPath ∈ pp)
          | none => false) = true
      · rw [if_pos hp] at h
        obtain ⟨h1, h2, h3, h4, h5⟩ := ih _ _ _ _ h
        refine ⟨by simp [h1], by simp [h2], by simp [h3], ?_, ?_⟩
        · intro x
          rw [h4 x, mem_insertSet]
          simp only [List.map_cons, List.mem_cons]
          tauto
        · intro x
          rw [h5 x]
          simp only [List.map_cons, List.mem_cons, mem_insertSet]
          tauto
      · rw [if_neg hp] at h
        obtain ⟨h1, h2, h3, h4, h5⟩ := ih _ _ _ _ h
        refine ⟨by simp [h1], by simp [h2], by simp [h3], ?_, ?_⟩
        · intro x
          rw [h4 x, mem_insertSet]
          simp only [List.map_cons, List.mem_cons]
          tauto
        · intro x
          rw [h5 x]
          simp only [List.map_cons, List.mem_cons, mem_insertSet]
          tauto

theorem processInputs_classify (derivations : List (String × Derivation)) (pp : List String) :
    ∀ (inputs : List (String × InputDerivation)) (node : PackageNode) (allChild : List String)
      (node2 : PackageNode) (allChild2 : List String),
    processInputs derivations pp inputs node allChild = some (node2, allChild2) →
    (∀ x ∈ node.children, patchCond derivations pp x = false) →
    (∀ x ∈ node.patches, patchCond derivations pp x = true) →
    (∀ x ∈ node2.children, patchCond derivations pp x = false) ∧
    (∀ x ∈ node2.patches, patchCond derivations pp x = true) := by
  intro inputs
  induction inputs with
  | nil =>
    intro node allChild node2 allChild2 h hc hp
    simp only [processInputs, Option.some.injEq, Prod.mk.injEq] at h
    obtain ⟨rfl, rfl⟩ := h
    exact ⟨hc, hp⟩
  | cons hd tl ih =>
    intro node allChild node2 allChild2 h hc hp
    obtain ⟨inputPath, det⟩ := hd
    simp only [processInputs] at h
    cases hchild : lookupList derivations inputPath with
    | none => rw [hchild] at h; exact absurd h (by simp)
    | some child =>
      simp only [hchild] at h
      have hcondeq : patchCond derivations pp inputPath =
          (match lookupList child.env "out" with
            | some outPath => decide (outPath ∈ pp)
            | none => false) := by
        simp [patchCond, hchild]
      by_cases hb : (match lookupList child.env "out" with
          | some outPath => decide (outPath ∈ pp)
          | none => false) = true
      · rw [if_pos hb] at h
        refine ih _ _ _ _ h hc ?_
        intro x hx
        rw [mem_insertSet] at hx
        rcases hx with rfl | hx
        · rw [hcondeq]; exact hb
        · exact hp x hx
      · rw [if_neg hb] at h
        refine ih _ _ _ _ h ?_ hp
        intro x hx
        rw [mem_insertSet] at hx
        rcases hx with rfl | hx
        · rw [hcondeq]; exact Bool.not_eq_true _ ▸ (by simpa using hb)
        · exact hc x hx

theorem buildNodes_isSome (derivations : List (String × Derivation)) :
    ∀ (todo : List (String × Derivation)) (nodes : List (String × PackageNode))
      (allChild : List String),
    (∀ pd ∈ todo, ∀ key ∈ pd.2.input_derivations.map Prod.fst,
      (lookupList derivations key).isSome = true) →
    (buildNodes derivations todo nodes allChild).isSome = true := by
  intro todo
  induction todo with
  | nil => intro nodes allChild _; simp [buildNodes]
  | cons hd tl ih =>
    intro nodes allChild h
    obtain ⟨derivationPath, drv⟩ := hd
    have hhd := processInputs_isSome derivations drv.get_patches drv.input_derivations
      (emptyNodeFor drv) allChild (h (derivationPath, drv) (by simp))
    obtain ⟨⟨node, allChild2⟩, hsome⟩ := Option.isSome_iff_exists.mp hhd
    simp only [buildNodes, hsome]
    exact ih _ _ (fun pd hpd => h pd (by simp [hpd]))

theorem buildNodes_map_main (derivations : List (String × Derivation)) :
    ∀ (todo : List (String × Derivation)) (nodes : List (String × PackageNode))
      (allChild : List String) (nodes2 : List (String × PackageNode)) (allChild2 : List String),
    buildNodes derivations todo nodes allChild = some (nodes2, allChild2) →
    nodes2.map (fun kn => (kn.1, kn.2.main_derivation)) =
      nodes.map (fun kn => (kn.1, kn.2.main_derivation)) ++ todo := by
  intro todo
  induction todo with
  | nil =>
    intro nodes allChild nodes2 allChild2 h
    simp only [buildNodes, Option.some.injEq, Prod.mk.injEq] at h
    obtain ⟨rfl, rfl⟩ := h
    simp
  | cons hd tl ih =>
    intro nodes allChild nodes2 allChild2 h
    obtain ⟨derivationPath, drv⟩ := hd
    simp only [buildNodes] at h
    cases hproc : processInputs derivations drv.get_patches drv.input_derivations
        (emptyNodeFor drv) allChild with
    | none => rw [hproc] at h; exact absurd h (by simp)
    | some res =>
      obtain ⟨node, allChild1⟩ := res
      rw [hproc] at h
      have hmain : node.main_derivation = drv :=
        (processInputs_spec derivations drv.get_patches _ _ _ _ _ hproc).1
      have := ih _ _ _ _ h
      rw [this]
      simp [hmain]

theorem buildNodes_allChild (derivations : List (String × Derivation)) :
    ∀ (todo : List (String × Derivation)) (nodes : List (String × PackageNode))
      (allChild : List String) (nodes2 : List (String × PackageNode)) (allChild2 : List String),
    buildNodes derivations todo nodes allChild = some (nodes2, allChild2) →
    ∀ x, x ∈ allChild2 ↔
      x ∈ allChild ∨ ∃ pd ∈ todo, x ∈ pd.2.input_derivations.map Prod.fst := by
  intro todo
  induction todo with
  | nil =>
    intro nodes allChild nodes2 allChild2 h x
    simp only [buildNodes, Option.some.injEq, Prod.mk.injEq] at h
    obtain ⟨rfl, rfl⟩ := h
    simp
  | cons hd tl ih =>
    intro nodes allChild nodes2 allChild2 h x
    obtain ⟨derivationPath, drv⟩ := hd
    simp only [buildNodes] at h
    cases hproc : processInputs derivations drv.get_patches drv.input_derivations
        (emptyNodeFor drv) allChild with
    | none => rw [hproc] at h; exact absurd h (by simp)
    | some res =>
      obtain ⟨node, allChild1⟩ := res
      rw [hproc] at h
      have hspec := (processInputs_spec derivations drv.get_patches _ _ _ _ _ hproc).2.2.2.1
      rw [ih _ _ _ _ h x, hspec x]
      simp only [List.mem_cons]
      constructor
      · rintro ((hx | hx) | ⟨pd, hpd, hxin⟩)
        · exact Or.inl hx
        · exact Or.inr ⟨(derivationPath, drv), Or.inl rfl, hx⟩
        · exact Or.inr ⟨pd, Or.inr hpd, hxin⟩
      · rintro (hx | ⟨pd, (rfl | hpd), hxin⟩)
        · exact Or.inl (Or.inl hx)
        · exact Or.inl (Or.inr hxin)
        · exact Or.inr ⟨pd, hpd, hxin⟩

theorem buildNodes_referenced (derivations : List (String × Derivation)) :
    ∀ (todo : List (String × Derivation)) (nodes : List (String × PackageNode))
      (allChild : List String) (nodes2 : List (String × PackageNode)) (allChild2 : List String),
    buildNodes derivations todo nodes allChild = some (nodes2, allChild2) →
    ∀ x, (∃ kn ∈ nodes2, x ∈ kn.2.children ∨ x ∈ kn.2.patches) ↔
      (∃ kn ∈ nodes, x ∈ kn.2.children ∨ x ∈ kn.2.patches) ∨
      ∃ pd ∈ todo, x ∈ pd.2.input_derivations.map Prod.fst := by
  intro todo
  induction todo with
  | nil =>
    intro nodes allChild nodes2 allChild2 h x
    simp only [buildNodes, Option.some.injEq, Prod.mk.injEq] at h
    obtain ⟨rfl, rfl⟩ := h
    simp
  | cons hd tl ih =>
    intro nodes allChild nodes2 allChild2 h x
    obtain ⟨derivationPath, drv⟩ := hd
    simp only [buildNodes] at h
    cases hproc : processInputs derivations drv.get_patches drv.input_derivations
        (emptyNodeFor drv) allChild with
    | none => rw [hproc] at h; exact absurd h (by simp)
    | some res =>
      obtain ⟨node, allChild1⟩ := res
      rw [hproc] at h
      have hspec := (processInputs_spec derivations drv.get_patches _ _ _ _ _ hproc).2.2.2.2
      have hnode : ∀ y, (y ∈ node.children ∨ y ∈ node.patches) ↔
          y ∈ drv.input_derivations.map Prod.fst := by
        intro y
        rw [hspec y]
        simp [emptyNodeFor]
      rw [ih _ _ _ _ h x]
      constructor
      · rintro (⟨kn, hkn, hx⟩ | ⟨pd, hpd, hxin⟩)
        · rcases List.mem_append.mp hkn with hkn2 | hkn2
          · exact Or.inl ⟨kn, hkn2, hx⟩
          · have hkneq : kn = (derivationPath, node) := List.mem_singleton.mp hkn2
            subst hkneq
            exact Or.inr ⟨(derivationPath, drv), List.mem_cons_self _ _, (hnode x).mp hx⟩
        · exact Or.inr ⟨pd, List.mem_cons_of_mem _ hpd, hxin⟩
      · rintro (⟨kn, hkn, hx⟩ | ⟨pd, hpd, hxin⟩)
        · exact Or.inl ⟨kn, List.mem_append.mpr (Or.inl hkn), hx⟩
        · rcases List.mem_cons.mp hpd with rfl | hpd2
          · exact Or.inl ⟨(derivationPath, node),
              List.mem_append.mpr (Or.inr (List.mem_singleton.mpr rfl)), (hnode x).mpr hxin⟩
          · exact Or.inr ⟨pd, hpd2, hxin⟩

theorem buildNodes_node_shape (derivations : List (String × Derivation)) :
    ∀ (todo : List (String × Derivation)) (nodes : List (String × PackageNode))
      (allChild : List String) (nodes2 : List (String × PackageNode)) (allChild2 : List String),
    buildNodes derivations todo nodes allChild = some (nodes2, allChild2) →
    ∀ kn ∈ nodes2, kn ∈ nodes ∨
      (kn.2.sources = [] ∧ ∀ x, ¬(x ∈ kn.2.children ∧ x ∈ kn.2.patches)) := by
  intro todo
  induction todo with
  | nil =>
    intro nodes allChild nodes2 allChild2 h kn hkn
    simp only [buildNodes, Option.some.injEq, Prod.mk.injEq] at h
    obtain ⟨rfl, rfl⟩ := h
    exact Or.inl hkn
  | cons hd tl ih =>
    intro nodes allChild nodes2 allChild2 h kn hkn
    obtain ⟨derivationPath, drv⟩ := hd
    simp only [buildNodes] at h
    cases hproc : processInputs derivations drv.get_patches drv.input_derivations
        (emptyNodeFor drv) allChild with
    | none => rw [hproc] at h; exact absurd h (by simp)
    | some res =>
      obtain ⟨node, allChild1⟩ := res
      rw [hproc] at h
      have hsrc : node.sources = [] :=
        (processInputs_spec derivations drv.get_patches _ _ _ _ _ hproc).2.2.1
      have hclassify := processInputs_classify derivations drv.get_patches _ _ _ _ _ hproc
        (by intro x hx; simp [emptyNodeFor] at hx) (by intro x hx; simp [emptyNodeFor] at hx)
      have hdisj : ∀ x, ¬(x ∈ node.children ∧ x ∈ node.patches) := by
        rintro x ⟨hxc, hxp⟩
        have h1 := hclassify.1 x hxc
        have h2 := hclassify.2 x hxp
        rw [h1] at h2
        exact Bool.false_ne_true h2
      rcases ih _ _ _ _ h kn hkn with hmem | hgood
      · rcases List.mem_append.mp hmem with hmem2 | hmem2
        · exact Or.inl hmem2
        · rcases List.mem_singleton.mp hmem2 with rfl
          exact Or.inr ⟨hsrc, hdisj⟩
      · exact Or.inr hgood

/-- Claim C2: for every store whose input references all resolve inside the
store, get_package_graph_next creates exactly one package node per recipe, in
store order, and each node's main_derivation is that recipe. -/
theorem c2_one_node_per_recipe (S : List (String × Derivation)) (h : StoreClosed S) :
    ∃ G, get_package_graph_next S = some G ∧
      G.nodes.map (fun kn => (kn.1, kn.2.main_derivation)) = S := by
  have hsome := buildNodes_isSome S S [] [] (by
    intro pd hpd key hkey
    rw [List.mem_map] at hkey
    obtain ⟨id, hid, rfl⟩ := hkey
    exact h pd hpd id hid)
  obtain ⟨⟨nodes, allChild⟩, hbuild⟩ := Option.isSome_iff_exists.mp hsome
  refine ⟨{ nodes := nodes,
            root_nodes := (S.map Prod.fst).filter (fun p => decide (p ∉ allChild)) }, ?_, ?_⟩
  · simp only [get_package_graph_next, hbuild]
  · have := buildNodes_map_main S S [] [] nodes allChild hbuild
    simpa using this

/-- Closed instance of claim C2 at the concrete two-derivation store. -/
theorem c2_one_node_per_recipe_witness :
    ∃ G, get_package_graph_next storeAB = some G ∧
      G.nodes.map (fun kn => (kn.1, kn.2.main_derivation)) = storeAB :=
  c2_one_node_per_recipe storeAB (by decide)

/-- Claim C9: every node of a graph built by get_package_graph_next has an
empty sources sequence (the builder classifies every input edge as a patch or
a child and never records a source-fetch leaf). -/
theorem c9_sources_always_empty (S : List (String × Derivation)) (G : PackageGraph)
    (h : get_package_graph_next S = some G) :
    ∀ kn ∈ G.nodes, kn.2.sources = [] := by
  intro kn hkn
  unfold get_package_graph_next at h
  cases hbuild : buildNodes S S [] [] with
  | none => rw [hbuild] at h; exact absurd h (by simp)
  | some res =>
    obtain ⟨nodes, allChild⟩ := res
    rw [hbuild] at h
    have hG : G.nodes = nodes := by
      cases h
      rfl
    rw [hG] at hkn
    rcases buildNodes_node_shape S S [] [] nodes allChild hbuild kn hkn with hmem | hgood
    · exact absurd hmem (List.not_mem_nil kn)
    · exact hgood.1

/-- Closed instance of claim C9 at the concrete two-derivation store. -/
theorem c9_sources_always_empty_witness : nodeA.sources = [] :=
  c9_sources_always_empty storeAB gAB (by decide) ("A", nodeA) (by decide)

/-- Claim C6: in every graph built by get_package_graph_next, no identifier is
a member of both the children set and the patches set of the same node. -/
theorem c6_children_patches_disjoint (S : List (String × Derivation)) (G : PackageGraph)
    (h : get_package_graph_next S = some G) :
    ∀ kn ∈ G.nodes, ∀ x, ¬(x ∈ kn.2.children ∧ x ∈ kn.2.patches) := by
  intro kn hkn
  unfold get_package_graph_next at h
  cases hbuild : buildNodes S S [] [] with
  | none => rw [hbuild] at h; exact absurd h (by simp)
  | some res =>
    obtain ⟨nodes, allChild⟩ := res
    rw [hbuild] at h
    have hG : G.nodes = nodes := by
      cases h
      rfl
    rw [hG] at hkn
    rcases buildNodes_node_shape S S [] [] nodes allChild hbuild kn hkn with hmem | hgood
    · exact absurd hmem (List.not_mem_nil kn)
    · exact hgood.2

/-- Closed instance of claim C6 at the concrete two-derivation store. -/
theorem c6_children_patches_disjoint_witness :
    ¬("B" ∈ nodeA.children ∧ "B" ∈ nodeA.patches) :=
  c6_children_patches_disjoint storeAB gAB (by decide) ("A", nodeA) (by decide) "B"

/-- Claim C1: for every store whose input references all resolve inside the
store, the built graph partitions the store identifiers: the union of the
root-node set and the set of identifiers referenced as a child or patch of
some node is exactly the key set of the store, and the root set is disjoint
from the referenced set. -/
theorem c1_roots_partition (S : List (String × Derivation)) (h : StoreClosed S) :
    ∃ G, get_package_graph_next S = some G ∧
      (∀ x, (x ∈ G.root_nodes ∨ ReferencedIn G x) ↔ x ∈ S.map Prod.fst) ∧
      (∀ x ∈ G.root_nodes, ¬ ReferencedIn G x) := by
  have hsome := buildNodes_isSome S S [] [] (by
    intro pd hpd key hkey
    rw [List.mem_map] at hkey
    obtain ⟨id, hid, rfl⟩ := hkey
    exact h pd hpd id hid)
  obtain ⟨⟨nodes, allChild⟩, hbuild⟩ := Option.isSome_iff_exists.mp hsome
  refine ⟨{ nodes := nodes,
            root_nodes := (S.map Prod.fst).filter (fun p => decide (p ∉ allChild)) }, ?_, ?_, ?_⟩
  · simp only [get_package_graph_next, hbuild]
  all_goals
    have hrefG : ∀ x, ReferencedIn
        { nodes := nodes,
          root_nodes := (S.map Prod.fst).filter (fun p => decide (p ∉ allChild)) } x ↔
        x ∈ allChild := by
      intro x
      unfold ReferencedIn
      rw [buildNodes_referenced S S [] [] nodes allChild hbuild x,
        buildNodes_allChild S S [] [] nodes allChild hbuild x]
      simp
  all_goals
    have hroot : ∀ x, x ∈ ((S.map Prod.fst).filter (fun p => decide (p ∉ allChild))) ↔
        x ∈ S.map Prod.fst ∧ x ∉ allChild := by
      intro x
      rw [List.mem_filter]
      simp
  · intro x
    rw [hrefG x]
    constructor
    · rintro (hx | hx)
      · exact ((hroot x).mp hx).1
      · rw [buildNodes_allChild S S [] [] nodes allChild hbuild x] at hx
        rcases hx with hx | ⟨pd, hpd, hkey⟩
        · exact absurd hx (List.not_mem_nil x)
        · rw [List.mem_map] at hkey
          obtain ⟨id, hid, rfl⟩ := hkey
          exact (lookupList_isSome_iff S id.1).mp (h pd hpd id hid)
    · intro hx
      by_cases hmem : x ∈ allChild
      · exact Or.inr hmem
      · exact Or.inl ((hroot x).mpr ⟨hx, hmem⟩)
  · intro x hx
    rw [hrefG x]
    exact ((hroot x).mp hx).2

/-- Closed instance of claim C1 at the concrete two-derivation store. -/
theorem c1_roots_partition_witness :
    ∃ G, get_package_graph_next storeAB = some G ∧
      (∀ x, (x ∈ G.root_nodes ∨ ReferencedIn G x) ↔ x ∈ storeAB.map Prod.fst) ∧
      (∀ x ∈ G.root_nodes, ¬ ReferencedIn G x) :=
  c1_roots_partition storeAB (by decide)

theorem cyclic_reachCount_none :
    ∀ fuel, reachCount cyclicNodes fuel ["B"] [] = none ∧
      reachCount cyclicNodes fuel ["A"] [] = none := by
  intro fuel
  induction fuel with
  | zero => exact ⟨rfl, rfl⟩
  | succ f ih =>
    constructor
    · have hB : lookupList cyclicNodes "B" = some (mkNode ["A"]) := rfl
      have hmem : ¬ ("B" ∈ ([] : List String)) := List.not_mem_nil _
      simp only [reachCount, if_neg hmem, hB]
      rw [show (mkNode ["A"]).children = ["A"] from rfl, ih.2]
    · have hA : lookupList cyclicNodes "A" = some (mkNode ["B"]) := rfl
      have hmem : ¬ ("A" ∈ ([] : List String)) := List.not_mem_nil _
      simp only [reachCount, if_neg hmem, hA]
      rw [show (mkNode ["B"]).children = ["B"] from rfl, ih.1]

/-- Claim C10, counterexample to totality on every node map: on the concrete
two-node map in which A and B reference each other, the reachable-count
traversal started at the node of A never returns (each child is inserted into
the visited set only after the recursive call into it, so the mutual
references recurse forever): no amount of fuel produces a result. -/
theorem c10_counterexample_cyclic_divergence :
    ¬ ∃ fuel r, (mkNode ["B"]).get_reachable_nodes_count cyclicNodes fuel [] = some r := by
  rintro ⟨fuel, r, h⟩
  unfold PackageNode.get_reachable_nodes_count at h
  rw [show (mkNode ["B"]).children = ["B"] from rfl, (cyclic_reachCount_none fuel).1] at h
  exact Option.noConfusion h

/-- Claim C10 as amended: on every input on which the traversal terminates the
function is panic-free and total in the claimed sense: a node with an empty
children set yields exactly one (itself) for every node map, every fuel and
every visited set, and a child identifier absent from the node map is skipped
and contributes nothing to the count. -/
theorem c10_reachable_count_totality :
    (∀ (nodes : List (String × PackageNode)) (fuel : Nat) (node : PackageNode)
        (visited : List String), node.children = [] →
        node.get_reachable_nodes_count nodes fuel visited = some (1, visited)) ∧
    (∀ (nodes : List (String × PackageNode)) (fuel : Nat) (c : String)
        (rest visited : List String), lookupList nodes c = none →
        reachCount nodes (fuel + 1) (c :: rest) visited = reachCount nodes fuel rest visited) := by
  constructor
  · intro nodes fuel node visited hch
    unfold PackageNode.get_reachable_nodes_count
    rw [hch]
    cases fuel with
    | zero => rfl
    | succ f => rfl
  · intro nodes fuel c rest visited hc
    by_cases hmem : c ∈ visited
    · simp only [reachCount, if_pos hmem]
    · simp only [reachCount, if_neg hmem, hc]

/-- Closed instance of claim C10 at a concrete leaf node and a concrete map
with an absent child identifier. -/
theorem c10_reachable_count_totality_witness :
    (mkNode []).get_reachable_nodes_count [] 0 [] = some (1, []) ∧
    reachCount [("A", mkNode [])] 1 ["Z"] [] = reachCount [("A", mkNode [])] 0 [] [] :=
  ⟨c10_reachable_count_totality.1 [] 0 (mkNode []) [] rfl,
    c10_reachable_count_totality.2 [("A", mkNode [])] 0 "Z" [] [] (by decide)⟩

theorem reachableStatsGo_spec (g : PackageGraph) (fuel : Nat) :
    ∀ (roots : List String) (out : List (String × Nat)),
    reachableStatsGo g fuel roots = some out →
    out.map Prod.fst = roots ∧
    ∀ r cnt, (r, cnt) ∈ out → ∃ node v, lookupList g.nodes r = some node ∧
      node.get_reachable_nodes_count g.nodes fuel [] = some (cnt, v) := by
  intro roots
  induction roots with
  | nil =>
    intro out h
    simp only [reachableStatsGo, Option.some.injEq] at h
    subst h
    simp
  | cons r rest ih =>
    intro out h
    simp only [reachableStatsGo] at h
    cases hnode : lookupList g.nodes r with
    | none => rw [hnode] at h; exact absurd h (by simp)
    | some node =>
      simp only [hnode] at h
      cases hcnt : node.get_reachable_nodes_count g.nodes fuel [] with
      | none => rw [hcnt] at h; exact absurd h (by simp)
      | some res =>
        obtain ⟨cnt, v⟩ := res
        simp only [hcnt] at h
        cases hrest : reachableStatsGo g fuel rest with
        | none => rw [hrest] at h; exact absurd h (by simp)
        | some out2 =>
          simp only [hrest, Option.some.injEq] at h
          subst h
          obtain ⟨ih1, ih2⟩ := ih out2 hrest
          refine ⟨by simp [ih1], ?_⟩
          rintro r2 cnt2 hmem
          rcases List.mem_cons.mp hmem with heq | hmem2
          · injection heq with h1 h2
            subst h1
            subst h2
            exact ⟨node, v, hnode, hcnt⟩
          · exact ih2 r2 cnt2 hmem2

/-- Claim C5, counterexample to the shared visited set: in the concrete graph
whose two roots A and B share the single leaf child C, the recorded
reachable-node counts are two for A and also two for B, so the shared child C
is counted toward both roots and the sum of the per-root counts (four)
exceeds the number of nodes (three). -/
theorem c5_counterexample_shared_child_counted_twice :
    reachable_nodes_count_stats gShared 4 = some [("A", 2), ("B", 2)] ∧
    2 + 2 > gShared.nodes.length := by decide

/-- Claim C5 as amended: the stats loop computes the reachable-node count of
every root with a freshly created empty visited set, independently of the
other roots: each recorded entry equals the count obtained by traversing from
that root alone starting from the empty visited set (so a node reachable from
several roots is counted once per such root, although never twice within one
root's count). -/
theorem c5_per_root_counts_use_fresh_visited_sets (g : PackageGraph) (fuel : Nat)
    (out : List (String × Nat)) (h : reachable_nodes_count_stats g fuel = some out) :
    out.map Prod.fst = g.root_nodes ∧
    ∀ r cnt, (r, cnt) ∈ out → ∃ node v, lookupList g.nodes r = some node ∧
      node.get_reachable_nodes_count g.nodes fuel [] = some (cnt, v) :=
  reachableStatsGo_spec g fuel g.root_nodes out h

/-- Closed instance of claim C5 at the concrete shared-child graph. -/
theorem c5_per_root_counts_witness :
    (([("A", 2), ("B", 2)] : List (String × Nat)).map Prod.fst = gShared.root_nodes) ∧
    ∀ r cnt, (r, cnt) ∈ ([("A", 2), ("B", 2)] : List (String × Nat)) →
      ∃ node v, lookupList gShared.nodes r = some node ∧
        node.get_reachable_nodes_count gShared.nodes 4 [] = some (cnt, v) :=
  c5_per_root_counts_use_fresh_visited_sets gShared 4 [("A", 2), ("B", 2)] (by decide)

theorem lpSpecAux_mono (nodes : List (String × PackageNode)) :
    ∀ (fuel : Nat) (l : List String) (acc r : List String),
    lpSpecAux nodes fuel l acc = some r → lpSpecAux nodes (fuel + 1) l acc = some r := by
  intro fuel
  induction fuel with
  | zero =>
    intro l acc r h
    cases l with
    | nil =>
      simp only [lpSpecAux, Option.some.injEq] at h
      subst h
      rfl
    | cons c rest => exact absurd h (by simp [lpSpecAux])
  | succ f ih =>
    intro l acc r h
    cases l with
    | nil =>
      simp only [lpSpecAux, Option.some.injEq] at h
      subst h
      rfl
    | cons c rest =>
      simp only [lpSpecAux] at h ⊢
      cases hlook : lookupList nodes c with
      | none => rw [hlook] at h; exact absurd h (by simp)
      | some child =>
        simp only [hlook] at h ⊢
        cases hrec : lpSpecAux nodes f child.children [] with
        | none => rw [hrec] at h; exact absurd h (by simp)
        | some p0 =>
          simp only [hrec] at h
          rw [ih child.children [] p0 hrec]
          exact ih rest _ r h

theorem lpSpecAux_mono_le (nodes : List (String × PackageNode))
    (f1 f2 : Nat) (l : List String) (acc r : List String) (hle : f1 ≤ f2)
    (h : lpSpecAux nodes f1 l acc = some r) : lpSpecAux nodes f2 l acc = some r := by
  induction f2 with
  | zero =>
    have : f1 = 0 := Nat.le_zero.mp hle
    subst this
    exact h
  | succ f ih =>
    rcases Nat.le_succ_iff.mp hle with hle2 | heq
    · exact lpSpecAux_mono nodes f l acc r (ih hle2)
    · subst heq
      exact h

theorem lpSpecAux_unique (nodes : List (String × PackageNode))
    (f1 f2 : Nat) (l : List String) (acc r1 r2 : List String)
    (h1 : lpSpecAux nodes f1 l acc = some r1)
    (h2 : lpSpecAux nodes f2 l acc = some r2) : r1 = r2 := by
  have e1 := lpSpecAux_mono_le nodes f1 (max f1 f2) l acc r1 (Nat.le_max_left _ _) h1
  have e2 := lpSpecAux_mono_le nodes f2 (max f1 f2) l acc r2 (Nat.le_max_right _ _) h2
  rw [e1] at e2
  exact Option.some.inj e2

theorem ite_longer_length (p q : List String) :
    (if p.length > q.length then p else q).length = max q.length p.length := by
  split <;> omega

theorem memoOK_cons (nodes : List (String × PackageNode)) (memo : Memo)
    (c : String) (p : List String) (hm : MemoOK nodes memo)
    (hp : IsNodePath nodes c p) : MemoOK nodes ((c, p) :: memo) := by
  intro k q hk
  by_cases hck : c = k
  · subst hck
    have : lookupList ((c, p) :: memo) c = some p := by simp [lookupList]
    rw [this] at hk
    cases hk
    exact hp
  · have : lookupList ((c, p) :: memo) k = lookupList memo k := by
      simp [lookupList, hck]
    rw [this] at hk
    exact hm k q hk

theorem lpGo_correct (nodes : List (String × PackageNode)) :
    ∀ (fuel : Nat) (l : List String) (acc : List String) (memo : Memo)
      (res : List String) (memo2 : Memo),
    MemoOK nodes memo → lpGo nodes fuel l acc memo = some (res, memo2) →
    MemoOK nodes memo2 ∧ ∃ f, lpSpecAux nodes f l acc = some res := by
  intro fuel
  induction fuel with
  | zero =>
    intro l acc memo res memo2 hm h
    cases l with
    | nil =>
      simp only [lpGo, Option.some.injEq, Prod.mk.injEq] at h
      obtain ⟨rfl, rfl⟩ := h
      exact ⟨hm, 0, rfl⟩
    | cons c rest => exact absurd h (by simp [lpGo])
  | succ f ih =>
    intro l acc memo res memo2 hm h
    cases l with
    | nil =>
      simp only [lpGo, Option.some.injEq, Prod.mk.injEq] at h
      obtain ⟨rfl, rfl⟩ := h
      exact ⟨hm, 0, rfl⟩
    | cons c rest =>
      simp only [lpGo] at h
      cases hmemo : lookupList memo c with
      | some p =>
        simp only [hmemo] at h
        have hpath : IsNodePath nodes c p := hm c p hmemo
        have hm2 : MemoOK nodes ((c, p) :: memo) := memoOK_cons nodes memo c p hm hpath
        obtain ⟨hmfinal, f1, hf1⟩ := ih rest _ _ res memo2 hm2 h
        obtain ⟨child, f0, p0, hlook, hspec0, hp⟩ := hpath
        subst hp
        refine ⟨hmfinal, max f0 f1 + 1, ?_⟩
        simp only [lpSpecAux, hlook]
        rw [lpSpecAux_mono_le nodes f0 (max f0 f1) child.children [] p0
          (Nat.le_max_left _ _) hspec0]
        exact lpSpecAux_mono_le nodes f1 (max f0 f1) rest _ res (Nat.le_max_right _ _) hf1
      | none =>
        simp only [hmemo] at h
        cases hlook : lookupList nodes c with
        | none => rw [hlook] at h; exact absurd h (by simp)
        | some child =>
          simp only [hlook] at h
          cases hrec : lpGo nodes f child.children [] memo with
          | none => rw [hrec] at h; exact absurd h (by simp)
          | some res1 =>
            obtain ⟨p0, memo1⟩ := res1
            simp only [hrec] at h
            obtain ⟨hm1, f0, hspec0⟩ := ih child.children [] memo p0 memo1 hm hrec
            have hpath : IsNodePath nodes c (c :: p0) := ⟨child, f0, p0, hlook, hspec0, rfl⟩
            have hm2 : MemoOK nodes ((c, c :: p0) :: memo1) :=
              memoOK_cons nodes memo1 c (c :: p0) hm1 hpath
            obtain ⟨hmfinal, f1, hf1⟩ := ih rest _ _ res memo2 hm2 h
            refine ⟨hmfinal, max f0 f1 + 1, ?_⟩
            simp only [lpSpecAux, hlook]
            rw [lpSpecAux_mono_le nodes f0 (max f0 f1) child.children [] p0
              (Nat.le_max_left _ _) hspec0]
            exact lpSpecAux_mono_le nodes f1 (max f0 f1) rest _ res (Nat.le_max_right _ _) hf1

theorem lpSpecAux_length (nodes : List (String × PackageNode)) (childLen : String → Nat) :
    ∀ (fuel : Nat) (l : List String) (acc r : List String),
    lpSpecAux nodes fuel l acc = some r →
    (∀ c ∈ l, ∀ q, IsNodePath nodes c q → childLen c = q.length) →
    r.length = (l.map childLen).foldl max acc.length := by
  intro fuel
  induction fuel with
  | zero =>
    intro l acc r h hcl
    cases l with
    | nil =>
      simp only [lpSpecAux, Option.some.injEq] at h
      subst h
      simp
    | cons c rest => exact absurd h (by simp [lpSpecAux])
  | succ f ih =>
    intro l acc r h hcl
    cases l with
    | nil =>
      simp only [lpSpecAux, Option.some.injEq] at h
      subst h
      simp
    | cons c rest =>
      simp only [lpSpecAux] at h
      cases hlook : lookupList nodes c with
      | none => rw [hlook] at h; exact absurd h (by simp)
      | some child =>
        simp only [hlook] at h
        cases hrec : lpSpecAux nodes f child.children [] with
        | none => rw [hrec] at h; exact absurd h (by simp)
        | some p0 =>
          simp only [hrec] at h
          have hclc : childLen c = (c :: p0).length :=
            hcl c (List.mem_cons_self _ _) (c :: p0) ⟨child, f, p0, hlook, hrec, rfl⟩
          have hrest := ih rest _ r h
            (fun c2 hc2 q hq => hcl c2 (List.mem_cons_of_mem _ hc2) q hq)
          rw [hrest, List.map_cons, List.foldl_cons, ite_longer_length, hclc]

/-- Claim C4, counterexample to the zero-length base case: in the concrete
one-node graph whose root A has no children, the longest-path length recorded
by the stats computation is one (the path consisting of the node itself), not
zero as the claim states. -/
theorem c4_counterexample_leaf_length_one :
    (mkNode []).children = [] ∧ longest_path_length_stats gLeaf 1 = some [("A", 1)] := by
  decide

/-- Claim C4 as amended: the longest-path length computed for a node (from a
fresh empty memo table, as the stats loop does for each root) is one when the
node has no children, and otherwise one plus the maximum of the longest-path
lengths computed for its children (each from a fresh empty memo table). -/
theorem c4_longest_path_recurrence (nodes : List (String × PackageNode)) (fuel : Nat)
    (id : String) (node : PackageNode) (p : List String) (m : Memo)
    (childLen : String → Nat)
    (hrun : node.get_longest_path id nodes fuel [] = some (p, m))
    (hch : ∀ c ∈ node.children, ∃ fc nc pc mc, lookupList nodes c = some nc ∧
      nc.get_longest_path c nodes fc [] = some (pc, mc) ∧ childLen c = pc.length) :
    p.length = if node.children = [] then 1
      else 1 + (node.children.map childLen).foldl max 0 := by
  have hmemoEmpty : MemoOK nodes [] := by
    intro k q hk
    exact absurd hk (by simp [lookupList])
  unfold PackageNode.get_longest_path at hrun
  cases hgo : lpGo nodes fuel node.children [] [] with
  | none => rw [hgo] at hrun; exact absurd hrun (by simp)
  | some res0 =>
    obtain ⟨l, m2⟩ := res0
    simp only [hgo, Option.some.injEq, Prod.mk.injEq] at hrun
    obtain ⟨rfl, rfl⟩ := hrun
    obtain ⟨_, f0, hspec⟩ := lpGo_correct nodes fuel node.children [] [] l m2 hmemoEmpty hgo
    have hagree : ∀ c ∈ node.children, ∀ q, IsNodePath nodes c q → childLen c = q.length := by
      intro c hc q hq
      obtain ⟨fc, nc, pc, mc, hlook, hrunc, hlen⟩ := hch c hc
      unfold PackageNode.get_longest_path at hrunc
      cases hgoc : lpGo nodes fc nc.children [] [] with
      | none => rw [hgoc] at hrunc; exact absurd hrunc (by simp)
      | some resc =>
        obtain ⟨lc, mc2⟩ := resc
        simp only [hgoc, Option.some.injEq, Prod.mk.injEq] at hrunc
        obtain ⟨rfl, rfl⟩ := hrunc
        obtain ⟨_, f2, hspec2⟩ := lpGo_correct nodes fc nc.children [] [] lc mc2 hmemoEmpty hgoc
        obtain ⟨child2, f3, q0, hlook2, hspec3, hq0⟩ := hq
        rw [hlook] at hlook2
        cases hlook2
        have : lc = q0 := lpSpecAux_unique nodes f2 f3 nc.children [] lc q0 hspec2 hspec3
        subst this
        subst hq0
        exact hlen
    have hlen := lpSpecAux_length nodes childLen f0 node.children [] l hspec hagree
    by_cases hnil : node.children = []
    · rw [if_pos hnil]
      rw [hnil] at hlen
      simp only [List.map_nil, List.foldl_nil, List.length_nil] at hlen
      simp [List.length_cons, hlen]
    · rw [if_neg hnil]
      rw [List.length_cons, hlen]
      simp only [List.length_nil]
      omega

/-- Closed instance of claim C4 at the concrete two-node chain graph. -/
theorem c4_longest_path_recurrence_witness :
    (["A", "B"] : List String).length =
      if (mkNode ["B"]).children = [] then 1
      else 1 + ((mkNode ["B"]).children.map (fun _ => 1)).foldl max 0 :=
  c4_longest_path_recurrence gChain.nodes 5 "A" (mkNode ["B"]) ["A", "B"] [("B", ["B"])]
    (fun _ => 1) (by decide)
    (by
      intro c hc
      have hc2 : c = "B" := by
        have : (mkNode ["B"]).children = ["B"] := rfl
        rw [this] at hc
        exact List.mem_singleton.mp hc
      subst hc2
      exact ⟨5, mkNode [], ["B"], [], by decide, by decide, rfl⟩)

end NixSbom
